import Mathlib

/-!
Shallow embedding of the blockchain_client proof-of-work repository:
canonical serialization and hashing (serialization.py), Merkle tree
construction and inclusion proofs (merkle.py), and difficulty, transaction
selection, mining and validation (block.py).  Python dictionaries with
integer or string values become association lists over `SValue`; SHA-256
is embedded as an executable function on byte lists (`Nat` bytes, each
reduced modulo 2^32 where the algorithm requires 32-bit words).
-/

set_option maxRecDepth 100000

namespace BlockchainClient

/-- A Python value stored in a transaction or header mapping: an integer,
a string, or any other value (carrying the rendering Python would
produce for it via the built-in string conversion). -/
inductive SValue where
  | int (i : Int)
  | str (s : String)
  | other (rendering : String)
deriving DecidableEq, Repr

/-- A Python dict with string keys, as an association list in insertion
order (keys assumed distinct, as in a dict). -/
abbrev FieldMap := List (String × SValue)

/-- Python dict lookup `m[k]` (first match). -/
def lookupField (m : FieldMap) (k : String) : Option SValue :=
  match m with
  | [] => none
  | (k1, v) :: rest => if k1 == k then some v else lookupField rest k

/-- Python dict assignment `m[k] = v`: replace in place if the key is
present, otherwise append. -/
def setField (m : FieldMap) (k : String) (v : SValue) : FieldMap :=
  match m with
  | [] => [(k, v)]
  | (k1, v1) :: rest =>
      if k1 == k then (k1, v) :: rest else (k1, v1) :: setField rest k v

/-- Field lookup that requires an integer value, as Python code doing
arithmetic on `m[k]` does. -/
def getIntField (m : FieldMap) (k : String) : Option Int :=
  match lookupField m k with
  | some (SValue.int i) => some i
  | _ => none

/-! ### 32-bit words and SHA-256, from the CPython hashlib sha256 used by
`serialization.py` and `merkle.py` (FIPS 180-4). -/

/-- Truncate to a 32-bit word. -/
def w32 (n : Nat) : Nat := n % 4294967296

/-- 32-bit right rotation. -/
def rotr (x n : Nat) : Nat := w32 ((x >>> n) ||| (x <<< (32 - n)))

/-- SHA-256 round constants, in decimal: the 64 words derived from the
cube roots of the first primes (FIPS 180-4). -/
def shaK : List Nat :=
  [1116352408, 1899447441, 3049323471, 3921009573, 961987163, 1508970993,
   2453635748, 2870763221, 3624381080, 310598401, 607225278, 1426881987,
   1925078388, 2162078206, 2614888103, 3248222580, 3835390401, 4022224774,
   264347078, 604807628, 770255983, 1249150122, 1555081692, 1996064986,
   2554220882, 2821834349, 2952996808, 3210313671, 3336571891, 3584528711,
   113926993, 338241895, 666307205, 773529912, 1294757372, 1396182291,
   1695183700, 1986661051, 2177026350, 2456956037, 2730485921, 2820302411,
   3259730800, 3345764771, 3516065817, 3600352804, 4094571909, 275423344,
   430227734, 506948616, 659060556, 883997877, 958139571, 1322822218,
   1537002063, 1747873779, 1955562222, 2024104815, 2227730452, 2361852424,
   2428436474, 2756734187, 3204031479, 3329325298]

/-- SHA-256 initial hash state (decimal renderings of the 8 words
derived from the square roots of the first primes, FIPS 180-4). -/
def shaH0 : List Nat :=
  [1779033703, 3144134277, 1013904242, 2773480762,
   1359893119, 2600822924, 528734635, 1541459225]

/-- Big-endian assembly of bytes into 32-bit words. -/
def bytesToWords : List Nat → List Nat
  | b0 :: b1 :: b2 :: b3 :: rest =>
      (b0 <<< 24 ||| b1 <<< 16 ||| b2 <<< 8 ||| b3) :: bytesToWords rest
  | _ => []

/-- Split a word list into 16-word blocks. -/
def wordsToBlocks : List Nat → List (List Nat)
  | w0 :: w1 :: w2 :: w3 :: w4 :: w5 :: w6 :: w7 ::
    w8 :: w9 :: w10 :: w11 :: w12 :: w13 :: w14 :: w15 :: rest =>
      [w0, w1, w2, w3, w4, w5, w6, w7, w8, w9, w10, w11, w12, w13, w14, w15]
        :: wordsToBlocks rest
  | _ => []

/-- SHA-256 padding: append 0x80, zero bytes to 56 mod 64, then the
64-bit big-endian bit length. -/
def shaPad (msg : List Nat) : List Nat :=
  let len := msg.length
  let zeroCount := (119 - len % 64) % 64
  let bitLen := 8 * len
  msg ++ [0x80] ++ List.replicate zeroCount 0 ++
    [w32 (bitLen >>> 56) % 256, (bitLen >>> 48) % 256, (bitLen >>> 40) % 256,
     (bitLen >>> 32) % 256, (bitLen >>> 24) % 256, (bitLen >>> 16) % 256,
     (bitLen >>> 8) % 256, bitLen % 256]

/-- One step of the message-schedule extension: append
`w[t-16] + s0(w[t-15]) + w[t-7] + s1(w[t-2])` to the schedule. -/
def schedStep (ws : List Nat) : List Nat :=
  let t := ws.length
  let wm2 := ws.getD (t - 2) 0
  let wm7 := ws.getD (t - 7) 0
  let wm15 := ws.getD (t - 15) 0
  let wm16 := ws.getD (t - 16) 0
  let s0 := (rotr wm15 7) ^^^ (rotr wm15 18) ^^^ (wm15 >>> 3)
  let s1 := (rotr wm2 17) ^^^ (rotr wm2 19) ^^^ (wm2 >>> 10)
  ws ++ [w32 (wm16 + s0 + wm7 + s1)]

/-- Iterate the schedule extension. -/
def schedExtend : Nat → List Nat → List Nat
  | 0, ws => ws
  | n + 1, ws => schedExtend n (schedStep ws)

/-- One SHA-256 compression round on the 8-word working state. -/
def shaRound (st : List Nat) (kw : Nat × Nat) : List Nat :=
  match st with
  | [a, b, c, d, e, f, g, h] =>
      let bigS1 := (rotr e 6) ^^^ (rotr e 11) ^^^ (rotr e 25)
      let ch := (e &&& f) ^^^ ((4294967295 - e) &&& g)
      let t1 := w32 (h + bigS1 + ch + kw.1 + kw.2)
      let bigS0 := (rotr a 2) ^^^ (rotr a 13) ^^^ (rotr a 22)
      let maj := (a &&& b) ^^^ (a &&& c) ^^^ (b &&& c)
      let t2 := w32 (bigS0 + maj)
      [w32 (t1 + t2), a, b, c, w32 (d + t1), e, f, g]
  | other => other

/-- Process one 16-word block, updating the 8-word hash state. -/
def shaBlock (hs : List Nat) (block : List Nat) : List Nat :=
  let ws := schedExtend 48 block
  let final := (shaK.zip ws).foldl shaRound hs
  List.zipWith (fun x y => w32 (x + y)) hs final

/-- SHA-256 state after absorbing a byte message. -/
def shaDigestWords (msg : List Nat) : List Nat :=
  (wordsToBlocks (bytesToWords (shaPad msg))).foldl shaBlock shaH0

/-- Lowercase hex digit. -/
def hexDigit (n : Nat) : Char :=
  if n < 10 then Char.ofNat (48 + n) else Char.ofNat (87 + n)

/-- A 32-bit word as 8 lowercase hex characters. -/
def wordHexChars (w : Nat) : List Char :=
  [hexDigit ((w >>> 28) % 16), hexDigit ((w >>> 24) % 16),
   hexDigit ((w >>> 20) % 16), hexDigit ((w >>> 16) % 16),
   hexDigit ((w >>> 12) % 16), hexDigit ((w >>> 8) % 16),
   hexDigit ((w >>> 4) % 16), hexDigit (w % 16)]

/-- `hashlib.sha256(bytes).hexdigest()`: lowercase 64-char hex string. -/
def sha256hex (msg : List Nat) : String :=
  String.mk ((shaDigestWords msg).foldr (fun w acc => wordHexChars w ++ acc) [])

/-- UTF-8 encoding of one character (Python `str.encode`). -/
def utf8Bytes (c : Char) : List Nat :=
  let n := c.toNat
  if n < 128 then [n]
  else if n < 2048 then [192 ||| (n >>> 6), 128 ||| (n &&& 63)]
  else if n < 65536 then
    [224 ||| (n >>> 12), 128 ||| ((n >>> 6) &&& 63), 128 ||| (n &&& 63)]
  else
    [240 ||| (n >>> 18), 128 ||| ((n >>> 12) &&& 63),
     128 ||| ((n >>> 6) &&& 63), 128 ||| (n &&& 63)]

/-- UTF-8 bytes of a string (Python `s.encode()`). -/
def strUtf8 (s : String) : List Nat :=
  s.data.foldr (fun c acc => utf8Bytes c ++ acc) []

/-! ### Canonical serialization and hashing (serialization.py). -/

/-- Python `str(value)` on the values stored in a mapping: decimal for
integers, the string itself for strings, the recorded rendering for any
other value.  Both branches of the source `isinstance` check call
`str(value)`. -/
def strOfValue : SValue → String
  | SValue.int i => toString i
  | SValue.str s => s
  | SValue.other r => r

/-- Python `<` on strings, on the character lists: code-point
lexicographic comparison. -/
def charListLt : List Char → List Char → Bool
  | [], [] => false
  | [], _ :: _ => true
  | _ :: _, [] => false
  | a :: as, b :: bs =>
      if a.toNat < b.toNat then true
      else if b.toNat < a.toNat then false
      else charListLt as bs

/-- Python `a < b` on strings. -/
def strLtB (a b : String) : Bool := charListLt a.data b.data

/-- Key order used by Python `sorted` on strings: the non-strict side of
the code-point lexicographic comparison. -/
def keyLe (a b : String) : Bool := !(strLtB b a)

/-- Stable insertion into a key-sorted association list. -/
def insertByKey (p : String × SValue) : FieldMap → FieldMap
  | [] => [p]
  | q :: rest => if keyLe p.1 q.1 then p :: q :: rest else q :: insertByKey p rest

/-- Python `sorted(m.items())` by key: a stable sort on the first
component (keys of a dict are distinct, so stability is automatic). -/
def sortByKey : FieldMap → FieldMap
  | [] => []
  | p :: rest => insertByKey p (sortByKey rest)

/-- `serialize_transaction`: sort the fields by key, render each value
with `str`, and join with commas. -/
def serialize_transaction (transaction : FieldMap) : String :=
  String.intercalate "," ((sortByKey transaction).map (fun p => strOfValue p.2))

/-- `serialize_block_header`: drop the "hash" field, then serialize like
a transaction. -/
def serialize_block_header (header : FieldMap) : String :=
  String.intercalate ","
    ((sortByKey (header.filter (fun p => p.1 != "hash"))).map
      (fun p => strOfValue p.2))

/-- `hash_transaction`: 0x-prefixed SHA-256 hex of the serialization. -/
def hash_transaction (transaction : FieldMap) : String :=
  "0x" ++ sha256hex (strUtf8 (serialize_transaction transaction))

/-- `hash_block_header`: 0x-prefixed SHA-256 hex of the header
serialization (the "hash" field excluded). -/
def hash_block_header (header : FieldMap) : String :=
  "0x" ++ sha256hex (strUtf8 (serialize_block_header header))

/-! ### Merkle tree construction and proofs (merkle.py). -/

/-- `NULL_HASH`: 0x followed by 64 zero characters. -/
def NULL_HASH : String := "0x" ++ String.mk (List.replicate 64 '0')

/-- Python slicing `s[2:]`, by code points. -/
def pyDrop2 (s : String) : String := String.mk (s.data.drop 2)

/-- `hash_pair`: strip the 0x prefixes, concatenate the hex bodies in
ascending order of the full prefixed strings, SHA-256, re-prefix. -/
def hash_pair (a b : String) : String :=
  let aHex := pyDrop2 a
  let bHex := pyDrop2 b
  let combined := if strLtB a b then aHex ++ bHex else bHex ++ aHex
  "0x" ++ sha256hex (strUtf8 combined)

/-- One level-reduction pass of `build_merkle_tree`: pair adjacent
hashes left to right, the odd leftover paired with `NULL_HASH`. -/
def nextLevel : List String → List String
  | [] => []
  | [a] => [hash_pair a NULL_HASH]
  | a :: b :: rest => hash_pair a b :: nextLevel rest

theorem nextLevel_length (l : List String) :
    (nextLevel l).length = (l.length + 1) / 2 := by
  induction l using nextLevel.induct with
  | case1 => simp [nextLevel]
  | case2 a => simp [nextLevel]
  | case3 a b rest ih => simp [nextLevel, ih]; omega

/-- The `while len(current_level) > 1` loop of `build_merkle_tree`,
returning `current_level[0]` at the end.  The loop terminates because
every pass at least halves the level, so it runs fewer than
`current_level.length` times; that length is passed as an iteration
bound to keep the recursion structural, and the two unreachable rows
(an empty level, an exhausted bound) are proved irrelevant below. -/
def buildLoop : Nat → List String → String
  | _, [] => NULL_HASH
  | _, [a] => a
  | 0, a :: _ :: _ => a
  | fuel + 1, a :: b :: rest => buildLoop fuel (nextLevel (a :: b :: rest))

/-- `build_merkle_tree`: empty list gives `NULL_HASH`, a single hash is
its own root, otherwise reduce level by level. -/
def build_merkle_tree (tx_hashes : List String) : String :=
  match tx_hashes with
  | [] => NULL_HASH
  | l => buildLoop l.length l

/-- The iteration bound of `buildLoop` is irrelevant whenever it covers
the number of passes the source loop makes, which `l.length - 1` always
does because each pass shortens the level by at least one. -/
theorem buildLoop_fuel (f1 f2 : Nat) (l : List String)
    (h1 : l.length ≤ f1 + 1) (h2 : l.length ≤ f2 + 1) :
    buildLoop f1 l = buildLoop f2 l := by
  induction f1 generalizing f2 l with
  | zero =>
      match l with
      | [] => cases f2 <;> rfl
      | [a] => cases f2 <;> rfl
      | a :: b :: rest => simp at h1
  | succ n ih =>
      match l with
      | [] => cases f2 <;> rfl
      | [a] => cases f2 <;> rfl
      | a :: b :: rest =>
          match f2 with
          | 0 => simp at h2
          | m + 1 =>
              simp only [buildLoop]
              apply ih
              · have := nextLevel_length (a :: b :: rest)
                simp only [List.length_cons] at h1 this ⊢
                omega
              · have := nextLevel_length (a :: b :: rest)
                simp only [List.length_cons] at h2 this ⊢
                omega

/-- The inner `for i in range(0, len, 2)` loop of
`build_merkle_tree_with_proof`: builds the next level and collects the
sibling entries appended to the proof at this level, `ci` being the
tracked index relative to the pair being processed. -/
def scanLevel : List String → Int → List String × List String
  | [], _ => ([], [])
  | [a], ci =>
      ([hash_pair a NULL_HASH],
       if ci == 0 then [NULL_HASH] else if ci == 1 then [a] else [])
  | a :: b :: rest, ci =>
      let r := scanLevel rest (ci - 2)
      (hash_pair a b :: r.1,
       (if ci == 0 then [b] else if ci == 1 then [a] else []) ++ r.2)

theorem scanLevel_fst (l : List String) (ci : Int) :
    (scanLevel l ci).1 = nextLevel l := by
  induction l using nextLevel.induct generalizing ci with
  | case1 => simp [scanLevel, nextLevel]
  | case2 a => simp [scanLevel, nextLevel]
  | case3 a b rest ih => simp [scanLevel, nextLevel, ih]

/-- The `while len(current_level) > 1` loop of
`build_merkle_tree_with_proof`: returns the root and the proof collected
from the current level upward.  The tracked index is halved with Python
floor division at each level.  As in `buildLoop`, the list length is
passed as a structural iteration bound, irrelevant whenever sufficient. -/
def proofLoop : Nat → List String → Int → String × List String
  | _, [], _ => (NULL_HASH, [])
  | _, [a], _ => (a, [])
  | 0, a :: _ :: _, _ => (a, [])
  | fuel + 1, a :: b :: rest, ci =>
      let s := scanLevel (a :: b :: rest) ci
      let r := proofLoop fuel s.1 (Int.fdiv ci 2)
      (r.1, s.2 ++ r.2)

/-- The iteration bound of `proofLoop` is irrelevant whenever it covers
the number of passes of the source loop. -/
theorem proofLoop_fuel (f1 f2 : Nat) (l : List String) (ci : Int)
    (h1 : l.length ≤ f1 + 1) (h2 : l.length ≤ f2 + 1) :
    proofLoop f1 l ci = proofLoop f2 l ci := by
  induction f1 generalizing f2 l ci with
  | zero =>
      match l with
      | [] => cases f2 <;> rfl
      | [a] => cases f2 <;> rfl
      | a :: b :: rest => simp at h1
  | succ n ih =>
      match l with
      | [] => cases f2 <;> rfl
      | [a] => cases f2 <;> rfl
      | a :: b :: rest =>
          match f2 with
          | 0 => simp at h2
          | m + 1 =>
              simp only [proofLoop]
              have hlen := nextLevel_length (a :: b :: rest)
              have hfst := scanLevel_fst (a :: b :: rest) ci
              rw [ih]
              · rw [hfst, hlen]
                simp only [List.length_cons] at h1 ⊢
                omega
              · rw [hfst, hlen]
                simp only [List.length_cons] at h2 ⊢
                omega

/-- `build_merkle_tree_with_proof`: guard (`not tx_hashes or tx_index >=
len(tx_hashes)` raises), single-leaf shortcut, then the level loop.
Failure (the `ValueError` raise) is `none`. -/
def build_merkle_tree_with_proof (tx_hashes : List String) (tx_index : Int) :
    Option (String × List String) :=
  if tx_hashes.isEmpty || decide ((tx_hashes.length : Int) ≤ tx_index) then
    none
  else if tx_hashes.length == 1 then
    some (tx_hashes.headD NULL_HASH, [])
  else
    some (proofLoop tx_hashes.length tx_hashes tx_index)

/-- The `for sibling in proof` loop of `verify_merkle_proof`: fold the
leaf upward, combining on the left when the tracked index is even and on
the right when odd; the level size is carried along exactly as in the
source, though never read. -/
def verifyLoop : String → List String → Int → Int → String
  | current, [], _, _ => current
  | current, sibling :: rest, ci, size =>
      verifyLoop
        (if Int.fmod ci 2 == 0 then hash_pair current sibling
         else hash_pair sibling current)
        rest (Int.fdiv ci 2) (Int.fdiv (size + 1) 2)

/-- `verify_merkle_proof`: fold the leaf up through the siblings and
compare with the expected root. -/
def verify_merkle_proof (tx_hash : String) (proof : List String)
    (merkle_root : String) (tx_index : Int) (total_txs : Int) : Bool :=
  verifyLoop tx_hash proof tx_index total_txs == merkle_root

/-! ### Difficulty, transaction selection and mining (block.py). -/

/-- `MAX_TRANSACTIONS_PER_BLOCK` constant. -/
def MAX_TRANSACTIONS_PER_BLOCK : Nat := 100

/-- `MAX_DIFFICULTY` constant. -/
def MAX_DIFFICULTY : Int := 6

/-- `DIFFICULTY_INCREASE_INTERVAL` constant. -/
def DIFFICULTY_INCREASE_INTERVAL : Int := 50

/-- `calculate_difficulty`: one plus the height floor-divided by 50,
capped at 6. -/
def calculate_difficulty (height : Int) : Int :=
  min (1 + Int.fdiv height DIFFICULTY_INCREASE_INTERVAL) MAX_DIFFICULTY

/-- Fee of a transaction once known to be an integer field. -/
def txFee (tx : FieldMap) : Int := (getIntField tx "transaction_fee").getD 0

/-- Stable insertion for the fee-descending sort: a transaction is
placed before the first entry whose fee it reaches or exceeds, so equal
fees keep the original relative order. -/
def insertFeeDesc (tx : FieldMap) : List FieldMap → List FieldMap
  | [] => [tx]
  | y :: ys =>
      if txFee y ≤ txFee tx then tx :: y :: ys else y :: insertFeeDesc tx ys

/-- The stable fee-descending sort performed by
`executable.sort(key=..., reverse=True)`. -/
def sortFeeDesc : List FieldMap → List FieldMap
  | [] => []
  | tx :: rest => insertFeeDesc tx (sortFeeDesc rest)

/-- The list comprehension filtering by
`tx["lock_time"] < next_block_timestamp`; a missing or non-integer
`lock_time` is the Python runtime error, hence `none`. -/
def filterLock (mempool : List FieldMap) (t : Int) : Option (List FieldMap) :=
  match mempool with
  | [] => some []
  | tx :: rest =>
      match getIntField tx "lock_time" with
      | none => none
      | some l =>
          match filterLock rest t with
          | none => none
          | some r => some (if l < t then tx :: r else r)

/-- `select_transactions`: filter by lock time, stable-sort by fee
descending, truncate to `max_count` (the runtime errors of the lock-time
filter and of the fee-keyed sort are `none`). -/
def select_transactions (mempool : List FieldMap) (next_block_timestamp : Int)
    (max_count : Nat) : Option (List FieldMap) :=
  match filterLock mempool next_block_timestamp with
  | none => none
  | some executable =>
      if executable.all (fun tx => (getIntField tx "transaction_fee").isSome) then
        some ((sortFeeDesc executable).take max_count)
      else none

/-- The `"0" * difficulty` string (empty for a negative difficulty, as
in Python). -/
def requiredZeros (d : Int) : String := String.mk (List.replicate d.toNat '0')

/-- Python `s.startswith(pre)`, on the character lists. -/
def pyStartsWith (s pre : String) : Bool := pre.data.isPrefixOf s.data

/-- The `while True` mining loop, fuelled: set the nonce, hash the
header, stop when the hash starts with the required prefix, else retry
with the next nonce.  `none` means the fuel ran out before a nonce was
found (the source loop is unbounded). -/
def mineLoop : Nat → String → Int → FieldMap → Option FieldMap
  | 0, _, _, _ => none
  | fuel + 1, pre, nonce, header =>
      let h1 := setField header "nonce" (SValue.int nonce)
      let bh := hash_block_header h1
      if pyStartsWith bh pre then some (setField h1 "hash" (SValue.str bh))
      else mineLoop fuel pre (nonce + 1) h1

/-- `mine_block`: read the difficulty (a missing or non-integer field is
the Python runtime error, hence `none`), build the required prefix
`"0x" + "0" * difficulty`, and run the nonce search from 0. -/
def mine_block (fuel : Nat) (header : FieldMap) : Option FieldMap :=
  match getIntField header "difficulty" with
  | none => none
  | some d => mineLoop fuel ("0x" ++ requiredZeros d) 0 header

/-! ### Helper lemmas. -/

theorem charListLt_asymm (x y : List Char) (h : charListLt x y = true) :
    charListLt y x = false := by
  induction x generalizing y with
  | nil =>
      cases y with
      | nil => rfl
      | cons b bs => rfl
  | cons a as ih =>
      cases y with
      | nil => exact absurd h (by intro hc; exact Bool.noConfusion hc)
      | cons b bs =>
          simp only [charListLt] at h ⊢
          by_cases hab : a.toNat < b.toNat
          · rw [if_neg (by omega), if_pos hab]
          · rw [if_neg hab] at h
            by_cases hba : b.toNat < a.toNat
            · rw [if_pos hba] at h
              exact absurd h (by intro hc; exact Bool.noConfusion hc)
            · rw [if_neg hba] at h
              rw [if_neg hba, if_neg hab]
              exact ih bs h

theorem charListLt_total (x y : List Char) (hxy : charListLt x y = false)
    (hyx : charListLt y x = false) : x = y := by
  induction x generalizing y with
  | nil =>
      cases y with
      | nil => rfl
      | cons b bs => exact absurd hxy (by intro hc; exact Bool.noConfusion hc)
  | cons a as ih =>
      cases y with
      | nil => exact absurd hyx (by intro hc; exact Bool.noConfusion hc)
      | cons b bs =>
          simp only [charListLt] at hxy hyx
          by_cases hab : a.toNat < b.toNat
          · rw [if_pos hab] at hxy
            exact absurd hxy (by intro hc; exact Bool.noConfusion hc)
          · by_cases hba : b.toNat < a.toNat
            · rw [if_pos hba] at hyx
              exact absurd hyx (by intro hc; exact Bool.noConfusion hc)
            · rw [if_neg hab, if_neg hba] at hxy
              have hchar : a = b := by
                have hval : a.toNat = b.toNat := by omega
                calc a = Char.ofNat a.toNat := (Char.ofNat_toNat a).symm
                  _ = Char.ofNat b.toNat := by rw [hval]
                  _ = b := Char.ofNat_toNat b
              rw [hchar, ih bs hxy (by rwa [if_neg hba, if_neg hab] at hyx)]

theorem strLtB_asymm (a b : String) (h : strLtB a b = true) :
    strLtB b a = false :=
  charListLt_asymm a.data b.data h

theorem strLtB_total (a b : String) (hab : strLtB a b = false)
    (hba : strLtB b a = false) : a = b := by
  cases a with
  | mk xs =>
      cases b with
      | mk ys => exact congrArg String.mk (charListLt_total xs ys hab hba)

theorem insertByKey_map_str (p : String × SValue) (m : FieldMap) :
    insertByKey (p.1, SValue.str (strOfValue p.2))
        (m.map (fun q => (q.1, SValue.str (strOfValue q.2)))) =
      (insertByKey p m).map (fun q => (q.1, SValue.str (strOfValue q.2))) := by
  induction m with
  | nil => rfl
  | cons q rest ih =>
      simp only [List.map_cons, insertByKey]
      by_cases h : keyLe p.1 q.1 = true
      · simp [h]
      · simp [h, ih]

theorem sortByKey_map_str (m : FieldMap) :
    sortByKey (m.map (fun q => (q.1, SValue.str (strOfValue q.2)))) =
      (sortByKey m).map (fun q => (q.1, SValue.str (strOfValue q.2))) := by
  induction m with
  | nil => rfl
  | cons p rest ih =>
      simp only [List.map_cons, sortByKey, ih]
      exact insertByKey_map_str p (sortByKey rest)

theorem filter_hash_map_str (m : FieldMap) :
    (m.map (fun q => (q.1, SValue.str (strOfValue q.2)))).filter
        (fun p => p.1 != "hash") =
      (m.filter (fun p => p.1 != "hash")).map
        (fun q => (q.1, SValue.str (strOfValue q.2))) := by
  induction m with
  | nil => rfl
  | cons p rest ih =>
      simp only [List.map_cons, List.filter_cons]
      by_cases h : (p.1 != "hash") = true
      · simp [h, ih]
      · simp [h, ih]

theorem verifyLoop_size (current : String) (proof : List String)
    (ci s1 s2 : Int) :
    verifyLoop current proof ci s1 = verifyLoop current proof ci s2 := by
  induction proof generalizing current ci s1 s2 with
  | nil => rfl
  | cons sib rest ih => simp only [verifyLoop]; exact ih _ _ _ _

/-! ### Claim theorems. -/

/-- C9: `hash_pair` is commutative: the two full prefixed strings are
compared lexicographically and the hex bodies concatenated in ascending
order before hashing, so swapping the arguments does not change the
result. -/
theorem hash_pair_comm (a b : String) : hash_pair a b = hash_pair b a := by
  cases hab : strLtB a b with
  | true =>
      have hba := strLtB_asymm a b hab
      simp [hash_pair, hab, hba]
  | false =>
      cases hba : strLtB b a with
      | true => simp [hash_pair, hab, hba]
      | false =>
          rw [strLtB_total a b hab hba]

/-- C8: `verify_merkle_proof` does not depend on its `total_txs`
argument: the carried level size is updated in the loop but never read,
so any two values give the same verification result and no structural
cross-check against the tree shape takes place. -/
theorem verify_merkle_proof_total_txs_irrelevant (tx_hash : String)
    (proof : List String) (merkle_root : String) (tx_index n1 n2 : Int) :
    verify_merkle_proof tx_hash proof merkle_root tx_index n1 =
      verify_merkle_proof tx_hash proof merkle_root tx_index n2 := by
  unfold verify_merkle_proof
  rw [verifyLoop_size tx_hash proof tx_index n1 n2]

/-- C5: `calculate_difficulty` equals `min (1 + height / 50) 6` with
floor division, is monotone, and takes the sample values 1, 1, 2, 6, 6
at heights 0, 49, 50, 250, 1000. -/
theorem calculate_difficulty_spec :
    (∀ h : Nat, calculate_difficulty h = min (1 + ((h / 50 : Nat) : Int)) 6) ∧
    (∀ h1 h2 : Int, 0 ≤ h1 → h1 ≤ h2 →
      calculate_difficulty h1 ≤ calculate_difficulty h2) ∧
    calculate_difficulty 0 = 1 ∧ calculate_difficulty 49 = 1 ∧
    calculate_difficulty 50 = 2 ∧ calculate_difficulty 250 = 6 ∧
    calculate_difficulty 1000 = 6 := by
  refine ⟨?_, ?_, by decide, by decide, by decide, by decide, by decide⟩
  · intro h
    unfold calculate_difficulty DIFFICULTY_INCREASE_INTERVAL MAX_DIFFICULTY
    rw [Int.fdiv_eq_ediv _ (by omega), Int.ofNat_ediv]
    norm_cast
  · intro h1 h2 h1nn hle
    unfold calculate_difficulty DIFFICULTY_INCREASE_INTERVAL MAX_DIFFICULTY
    have : Int.fdiv h1 50 ≤ Int.fdiv h2 50 := by
      rw [Int.fdiv_eq_ediv _ (by omega), Int.fdiv_eq_ediv _ (by omega)]
      omega
    omega

/-- C5 witness: monotonicity applied at heights 3 and 300. -/
theorem calculate_difficulty_spec_witness :
    calculate_difficulty 3 ≤ calculate_difficulty 300 :=
  calculate_difficulty_spec.2.1 3 300 (by decide) (by decide)

/-- C2: the known header vector (difficulty 5, height 203, the given
merkle root, miner, previous hash, timestamp 1697412660, 97
transactions, nonce 0) hashes through `hash_block_header` to exactly
0x073c348de2486c616699fcd8267dc895f2d8b43355b126295da92df2961f8a87. -/
theorem hash_block_header_known_vector :
    hash_block_header
      [("difficulty", SValue.int 5), ("height", SValue.int 203),
       ("transactions_merkle_root", SValue.str
          "0xddba0c2d7d38a9bc8ba357d1fcb4a4be339ab5fddf8cdcc4419970e4746d1f6e"),
       ("miner", SValue.str "0xdc45038aee5144bbfa641912eaf32ebf2bad2bd7"),
       ("previous_block_header_hash", SValue.str
          "0xb2448304889df2935277464e90a73e53b9d2c5820c48de4a40d4fa5b844c7b57"),
       ("timestamp", SValue.int 1697412660),
       ("transactions_count", SValue.int 97),
       ("nonce", SValue.int 0)] =
    "0x073c348de2486c616699fcd8267dc895f2d8b43355b126295da92df2961f8a87" := by
  decide

/-- C7 counterexample: the claim says an index below 0 is rejected with
InvalidIndex, but the source only guards `tx_index >= len(tx_hashes)`, so
index -1 on a two-leaf list returns normally (with an empty sibling
list, since no pair position ever equals a negative index). -/
theorem build_merkle_tree_with_proof_negative_index :
    build_merkle_tree_with_proof
      ["0x0101010101010101010101010101010101010101010101010101010101010101",
       "0x0202020202020202020202020202020202020202020202020202020202020202"]
      (-1) =
    some ("0x7619ddd5684b0b01ec5fdc457a89913cef8aa0b967f8dac2a030d77c70dfa9c7",
      []) := by
  decide

/-- C7 amended: `build_merkle_tree_with_proof` fails (raises
InvalidIndex) exactly when the leaf list is empty or the index is at
least the number of leaves; a negative index is not rejected. -/
theorem build_merkle_tree_with_proof_error_iff (tx_hashes : List String)
    (tx_index : Int) :
    build_merkle_tree_with_proof tx_hashes tx_index = none ↔
      (tx_hashes = [] ∨ (tx_hashes.length : Int) ≤ tx_index) := by
  unfold build_merkle_tree_with_proof
  by_cases hc : (tx_hashes.isEmpty || decide ((tx_hashes.length : Int) ≤ tx_index)) = true
  · rw [if_pos hc]
    simp only [Bool.or_eq_true, List.isEmpty_iff, decide_eq_true_eq] at hc
    simp [hc]
  · rw [if_neg hc]
    simp only [Bool.or_eq_true, List.isEmpty_iff, decide_eq_true_eq, not_or] at hc
    by_cases h1 : (tx_hashes.length == 1) = true
    · rw [if_pos h1]
      simp [hc.1, hc.2]
    · rw [if_neg h1]
      simp [hc.1, hc.2]

/-- C4 counterexample: the claim says canonical serialization fails with
SerializationError when a value is neither integer nor string, but both
branches of the source `isinstance` test call `str(value)`, no
SerializationError exists anywhere in the repository, and serialization
returns normally: on a mapping holding one non-integer, non-string
value it simply returns that value's string rendering. -/
theorem serialize_transaction_accepts_other :
    serialize_transaction [("amount", SValue.other "None")] = "None" := by
  decide

/-- C4 amended: canonical serialization never fails; every value is
rendered with the Python `str` conversion (integers in decimal, strings
as-is, anything else by its own string form), so replacing each value by
its string rendering first changes nothing, for transactions and for
block headers alike.  Mappings whose values are all integers or strings
succeed, as a special case of serialization succeeding on everything. -/
theorem serialize_renders_all_values_by_str (m : FieldMap) :
    serialize_transaction m =
      serialize_transaction (m.map (fun p => (p.1, SValue.str (strOfValue p.2)))) ∧
    serialize_block_header m =
      serialize_block_header (m.map (fun p => (p.1, SValue.str (strOfValue p.2)))) := by
  constructor
  · unfold serialize_transaction
    rw [sortByKey_map_str m]
    rw [List.map_map]
    rfl
  · unfold serialize_block_header
    rw [filter_hash_map_str m]
    rw [sortByKey_map_str (m.filter (fun p => p.1 != "hash"))]
    rw [List.map_map]
    rfl

theorem proofLoop_fst (fuel : Nat) : ∀ (l : List String) (ci : Int),
    (proofLoop fuel l ci).1 = buildLoop fuel l := by
  induction fuel with
  | zero =>
      intro l ci
      match l with
      | [] => rfl
      | [a] => rfl
      | a :: b :: rest => rfl
  | succ n ih =>
      intro l ci
      match l with
      | [] => rfl
      | [a] => rfl
      | a :: b :: rest =>
          simp only [proofLoop, buildLoop]
          rw [scanLevel_fst]
          exact ih _ _

/-- C10: whenever `build_merkle_tree_with_proof` returns on a non-empty
leaf list and an in-range index, the root it returns is exactly
`build_merkle_tree` of the same leaves: both run the identical pairwise
level reduction, the proof bookkeeping never touching the levels. -/
theorem build_with_proof_root_agrees (l : List String) (i : Nat)
    (hne : l ≠ []) (hi : i < l.length) (root : String)
    (siblings : List String)
    (heq : build_merkle_tree_with_proof l (i : Int) = some (root, siblings)) :
    root = build_merkle_tree l := by
  unfold build_merkle_tree_with_proof at heq
  by_cases hc : (l.isEmpty || decide ((l.length : Int) ≤ (i : Int))) = true
  · rw [if_pos hc] at heq
    exact absurd heq (by simp)
  · rw [if_neg hc] at heq
    by_cases h1 : (l.length == 1) = true
    · rw [if_pos h1] at heq
      match l, hne with
      | a :: rest, _ =>
          have hr : rest = [] := by
            simp only [List.length_cons, beq_iff_eq] at h1
            exact List.eq_nil_of_length_eq_zero (by omega)
          subst hr
          simp only [List.headD_cons, Option.some_inj, Prod.mk.injEq] at heq
          rw [← heq.1]
          rfl
    · rw [if_neg h1] at heq
      simp only [Option.some_inj] at heq
      have hroot : root = (proofLoop l.length l (i : Int)).1 := by
        rw [heq]
      rw [hroot, proofLoop_fst]
      match l, hne with
      | a :: rest, _ => rfl

/-- C10 witness: the two-leaf tree at index 1. -/
theorem build_with_proof_root_agrees_witness :
    "0x7619ddd5684b0b01ec5fdc457a89913cef8aa0b967f8dac2a030d77c70dfa9c7" =
      build_merkle_tree
        ["0x0101010101010101010101010101010101010101010101010101010101010101",
         "0x0202020202020202020202020202020202020202020202020202020202020202"] :=
  build_with_proof_root_agrees
    ["0x0101010101010101010101010101010101010101010101010101010101010101",
     "0x0202020202020202020202020202020202020202020202020202020202020202"]
    1 (by decide) (by decide)
    "0x7619ddd5684b0b01ec5fdc457a89913cef8aa0b967f8dac2a030d77c70dfa9c7"
    ["0x0101010101010101010101010101010101010101010101010101010101010101"]
    (by decide)

theorem lookup_setField_self (m : FieldMap) (k : String) (v : SValue) :
    lookupField (setField m k v) k = some v := by
  induction m with
  | nil => simp [setField, lookupField]
  | cons p rest ih =>
      obtain ⟨k1, v1⟩ := p
      simp only [setField]
      by_cases h : (k1 == k) = true
      · rw [if_pos h]
        simp only [lookupField]
        rw [if_pos h]
      · rw [if_neg h]
        simp only [lookupField]
        rw [if_neg h]
        exact ih

theorem lookup_setField_ne (m : FieldMap) (k k' : String) (v : SValue)
    (h : k' ≠ k) : lookupField (setField m k v) k' = lookupField m k' := by
  induction m with
  | nil =>
      simp only [setField, lookupField]
      rw [if_neg (by simp [Ne.symm h])]
  | cons p rest ih =>
      obtain ⟨k1, v1⟩ := p
      simp only [setField]
      by_cases hk : (k1 == k) = true
      · rw [if_pos hk]
        have hk1 : k1 = k := by simpa using hk
        subst hk1
        simp only [lookupField]
        rw [if_neg (by simp [Ne.symm h]), if_neg (by simp [Ne.symm h])]
      · rw [if_neg hk]
        simp only [lookupField]
        by_cases h2 : (k1 == k') = true
        · rw [if_pos h2, if_pos h2]
        · rw [if_neg h2, if_neg h2]
          exact ih

theorem mineLoop_pow (fuel : Nat) : ∀ (pre : String) (nonce : Int)
    (header h' : FieldMap), mineLoop fuel pre nonce header = some h' →
    ∃ s, lookupField h' "hash" = some (SValue.str s) ∧
      pyStartsWith s pre = true ∧
      ∀ k, k ≠ "hash" → k ≠ "nonce" →
        lookupField h' k = lookupField header k := by
  induction fuel with
  | zero =>
      intro pre nonce header h' heq
      exact absurd heq (by simp [mineLoop])
  | succ n ih =>
      intro pre nonce header h' heq
      simp only [mineLoop] at heq
      by_cases hp : pyStartsWith
          (hash_block_header (setField header "nonce" (SValue.int nonce)))
          pre = true
      · rw [if_pos hp] at heq
        obtain rfl := Option.some_inj.mp heq
        refine ⟨_, lookup_setField_self _ _ _, hp, ?_⟩
        intro k hk1 hk2
        rw [lookup_setField_ne _ _ _ _ hk1, lookup_setField_ne _ _ _ _ hk2]
      · rw [if_neg hp] at heq
        obtain ⟨s, h1, h2, h3⟩ := ih pre (nonce + 1) _ h' heq
        refine ⟨s, h1, h2, fun k hk1 hk2 => ?_⟩
        rw [h3 k hk1 hk2, lookup_setField_ne _ _ _ _ hk2]

theorem replicate_zero_count (n : Nat) : ∀ xs : List Char,
    (List.replicate n '0').isPrefixOf xs = true →
    n ≤ (xs.takeWhile (fun c => c == '0')).length := by
  induction n with
  | zero => intro xs _; omega
  | succ m ih =>
      intro xs h
      match xs with
      | [] =>
          rw [List.replicate_succ] at h
          exact absurd h (by simp [List.isPrefixOf])
      | c :: cs =>
          rw [List.replicate_succ] at h
          simp only [List.isPrefixOf, Bool.and_eq_true] at h
          obtain ⟨hc, hrest⟩ := h
          have hc' : c = '0' := (eq_of_beq hc).symm
          subst hc'
          rw [List.takeWhile_cons]
          rw [if_pos (by simp)]
          simpa using ih cs hrest

/-- The number of leading zero characters of the hex body (the part
after the 0x prefix) of a hash string. -/
def hexBodyZeros (s : String) : Nat :=
  ((pyDrop2 s).data.takeWhile (fun c => c == '0')).length

/-- C3 counterexample: mining the header with difficulty 1 and extra
field t = 66 succeeds at nonce 2, but the mined hash's hex body starts
with two zero characters rather than exactly one, because the source
only checks `startswith` (at least difficulty zeros), never "exactly". -/
theorem mine_block_not_exactly_difficulty_zeros :
    mine_block 3 [("difficulty", SValue.int 1), ("t", SValue.int 66)] =
      some [("difficulty", SValue.int 1), ("t", SValue.int 66),
        ("nonce", SValue.int 2),
        ("hash", SValue.str
          "0x0051e5fe1703126090aa1abc694707723618bb3d59df20d8e83a4f9f853df613")] ∧
    hexBodyZeros
        "0x0051e5fe1703126090aa1abc694707723618bb3d59df20d8e83a4f9f853df613" =
      2 := by
  exact ⟨by decide, by decide⟩

/-- C3 amended: whenever the miner returns a header, the returned
header's difficulty field is an integer d, its hash field is a string,
and the hash's hex body starts with at least d zero characters (the
count of leading zeros is at least d; it can exceed d). -/
theorem mine_block_pow (fuel : Nat) (header h' : FieldMap)
    (heq : mine_block fuel header = some h') :
    ∃ d s, getIntField h' "difficulty" = some d ∧
      lookupField h' "hash" = some (SValue.str s) ∧
      d.toNat ≤ hexBodyZeros s := by
  unfold mine_block at heq
  cases hd : getIntField header "difficulty" with
  | none =>
      rw [hd] at heq
      exact absurd heq (by simp)
  | some d =>
      rw [hd] at heq
      obtain ⟨s, hhash, hpre, hothers⟩ := mineLoop_pow fuel _ 0 header h' heq
      refine ⟨d, s, ?_, hhash, ?_⟩
      · unfold getIntField at hd ⊢
        rw [hothers "difficulty" (by decide) (by decide)]
        exact hd
      · unfold pyStartsWith at hpre
        have hdata : ("0x" ++ requiredZeros d).data =
            '0' :: 'x' :: List.replicate d.toNat '0' := rfl
        rw [hdata] at hpre
        obtain ⟨sdata⟩ := s
        match sdata, hpre with
        | [], hpre => exact absurd hpre (by simp [List.isPrefixOf])
        | [c], hpre =>
            exact absurd hpre (by simp [List.isPrefixOf])
        | c1 :: c2 :: rest, hpre =>
            simp only [List.isPrefixOf, Bool.and_eq_true] at hpre
            obtain ⟨_, _, hrest⟩ := hpre
            have := replicate_zero_count d.toNat rest hrest
            simpa [hexBodyZeros, pyDrop2] using this

/-- C3 amended witness: the difficulty-1 header with extra field t = 8
mines at nonce 0 with one leading zero. -/
theorem mine_block_pow_witness :
    ∃ d s,
      getIntField
          [("difficulty", SValue.int 1), ("t", SValue.int 8),
           ("nonce", SValue.int 0),
           ("hash", SValue.str
             "0x0bc3f22ee2907bb306c68a87eec502de763c5daf567c402e8a798421b60fbf23")]
          "difficulty" = some d ∧
      lookupField
          [("difficulty", SValue.int 1), ("t", SValue.int 8),
           ("nonce", SValue.int 0),
           ("hash", SValue.str
             "0x0bc3f22ee2907bb306c68a87eec502de763c5daf567c402e8a798421b60fbf23")]
          "hash" = some (SValue.str s) ∧
      d.toNat ≤ hexBodyZeros s :=
  mine_block_pow 1 [("difficulty", SValue.int 1), ("t", SValue.int 8)]
    [("difficulty", SValue.int 1), ("t", SValue.int 8),
     ("nonce", SValue.int 0),
     ("hash", SValue.str
       "0x0bc3f22ee2907bb306c68a87eec502de763c5daf567c402e8a798421b60fbf23")]
    (by decide)

theorem insertFeeDesc_perm (x : FieldMap) (l : List FieldMap) :
    (insertFeeDesc x l).Perm (x :: l) := by
  induction l with
  | nil => exact List.Perm.refl _
  | cons y ys ih =>
      simp only [insertFeeDesc]
      by_cases h : txFee y ≤ txFee x
      · rw [if_pos h]
      · rw [if_neg h]
        exact (ih.cons y).trans (List.Perm.swap x y ys)

theorem insertFeeDesc_pairwise (x : FieldMap) (l : List FieldMap)
    (hp : l.Pairwise (fun a b => txFee b ≤ txFee a)) :
    (insertFeeDesc x l).Pairwise (fun a b => txFee b ≤ txFee a) := by
  induction l with
  | nil => simp [insertFeeDesc]
  | cons y ys ih =>
      rw [List.pairwise_cons] at hp
      simp only [insertFeeDesc]
      by_cases h : txFee y ≤ txFee x
      · rw [if_pos h]
        rw [List.pairwise_cons]
        refine ⟨?_, List.pairwise_cons.mpr hp⟩
        intro z hz
        rcases List.mem_cons.mp hz with hz | hz
        · exact hz ▸ h
        · exact le_trans (hp.1 z hz) h
      · rw [if_neg h]
        rw [List.pairwise_cons]
        refine ⟨?_, ih hp.2⟩
        intro z hz
        rcases List.mem_cons.mp ((insertFeeDesc_perm x ys).mem_iff.mp hz)
          with hz | hz
        · exact hz ▸ le_of_lt (lt_of_not_le h)
        · exact hp.1 z hz

theorem insertFeeDesc_filter_eq (x : FieldMap) (l : List FieldMap) (f : Int)
    (hf : txFee x = f) :
    (insertFeeDesc x l).filter (fun tx => txFee tx == f) =
      x :: l.filter (fun tx => txFee tx == f) := by
  induction l with
  | nil => simp [insertFeeDesc, List.filter_cons, hf]
  | cons y ys ih =>
      simp only [insertFeeDesc]
      by_cases h : txFee y ≤ txFee x
      · rw [if_pos h]
        simp [List.filter_cons, hf]
      · rw [if_neg h]
        have hy : ¬ txFee y = f := by
          intro hc
          exact h (le_of_eq (hf ▸ hc))
        simp only [List.filter_cons]
        rw [if_neg (by simpa using hy), if_neg (by simpa using hy)]
        exact ih

theorem insertFeeDesc_filter_ne (x : FieldMap) (l : List FieldMap) (f : Int)
    (hf : txFee x ≠ f) :
    (insertFeeDesc x l).filter (fun tx => txFee tx == f) =
      l.filter (fun tx => txFee tx == f) := by
  induction l with
  | nil =>
      simp only [insertFeeDesc, List.filter_cons, List.filter_nil]
      rw [if_neg (by simpa using hf)]
  | cons y ys ih =>
      simp only [insertFeeDesc]
      by_cases h : txFee y ≤ txFee x
      · rw [if_pos h]
        simp only [List.filter_cons]
        rw [if_neg (by simpa using hf)]
      · rw [if_neg h]
        simp only [List.filter_cons]
        by_cases hy : (txFee y == f) = true
        · rw [if_pos hy, if_pos hy, ih]
        · rw [if_neg hy, if_neg hy]
          exact ih

theorem sortFeeDesc_perm (l : List FieldMap) : (sortFeeDesc l).Perm l := by
  induction l with
  | nil => exact List.Perm.refl _
  | cons x xs ih =>
      exact (insertFeeDesc_perm x (sortFeeDesc xs)).trans (ih.cons x)

theorem sortFeeDesc_pairwise (l : List FieldMap) :
    (sortFeeDesc l).Pairwise (fun a b => txFee b ≤ txFee a) := by
  induction l with
  | nil => simp [sortFeeDesc]
  | cons x xs ih => exact insertFeeDesc_pairwise x (sortFeeDesc xs) ih

theorem sortFeeDesc_stable (l : List FieldMap) (f : Int) :
    (sortFeeDesc l).filter (fun tx => txFee tx == f) =
      l.filter (fun tx => txFee tx == f) := by
  induction l with
  | nil => rfl
  | cons x xs ih =>
      simp only [sortFeeDesc]
      by_cases hf : txFee x = f
      · rw [insertFeeDesc_filter_eq x (sortFeeDesc xs) f hf, ih,
          List.filter_cons, if_pos (by simpa using hf)]
      · rw [insertFeeDesc_filter_ne x (sortFeeDesc xs) f hf, ih,
          List.filter_cons, if_neg (by simpa using hf)]

theorem filterLock_eq (mempool : List FieldMap) (t : Int)
    (hlock : ∀ tx ∈ mempool, (getIntField tx "lock_time").isSome = true) :
    filterLock mempool t =
      some (mempool.filter
        (fun tx => decide ((getIntField tx "lock_time").getD 0 < t))) := by
  induction mempool with
  | nil => rfl
  | cons tx rest ih =>
      have htx := hlock tx (List.mem_cons_self tx rest)
      obtain ⟨l, hl⟩ := Option.isSome_iff_exists.mp htx
      have hrest := ih (fun q hq => hlock q (List.mem_cons_of_mem tx hq))
      simp only [filterLock, hl, hrest, Option.getD_some, List.filter_cons]
      by_cases hlt : l < t
      · rw [if_pos hlt, if_pos (by simp [hl, hlt])]
      · rw [if_neg hlt, if_neg (by simp [hl, hlt])]

/-- C6: under the well-formedness the source assumes (every mempool
transaction carries integer lock_time and transaction_fee fields),
`select_transactions` returns the prefix of length at most maxCount of a
list s that contains exactly the transactions with lock_time strictly
below the timestamp (a permutation of that filtering), is ordered by fee
descending, and keeps equal-fee transactions in their original mempool
order (its restriction to any fixed fee equals the filtered mempool's). -/
theorem select_transactions_spec (mempool : List FieldMap) (t : Int)
    (maxCount : Nat)
    (hlock : ∀ tx ∈ mempool, (getIntField tx "lock_time").isSome = true)
    (hfee : ∀ tx ∈ mempool, (getIntField tx "transaction_fee").isSome = true) :
    ∃ s : List FieldMap,
      select_transactions mempool t maxCount = some (s.take maxCount) ∧
      s.Perm (mempool.filter
        (fun tx => decide ((getIntField tx "lock_time").getD 0 < t))) ∧
      s.Pairwise (fun a b => txFee b ≤ txFee a) ∧
      ∀ f : Int, s.filter (fun tx => txFee tx == f) =
        (mempool.filter
          (fun tx => decide ((getIntField tx "lock_time").getD 0 < t))).filter
          (fun tx => txFee tx == f) := by
  have hexe := filterLock_eq mempool t hlock
  refine ⟨sortFeeDesc (mempool.filter
    (fun tx => decide ((getIntField tx "lock_time").getD 0 < t))), ?_, ?_, ?_, ?_⟩
  · simp only [select_transactions, hexe]
    rw [if_pos ?hall]
    case hall =>
      rw [List.all_eq_true]
      intro tx htx
      exact hfee tx (List.mem_of_mem_filter htx)
  · exact sortFeeDesc_perm _
  · exact sortFeeDesc_pairwise _
  · intro f
    exact sortFeeDesc_stable _ f

/-- C6 witness: a three-transaction mempool with one locked transaction
and an equal-fee tie, timestamp 100 and cap 2. -/
theorem select_transactions_spec_witness :
    ∃ s : List FieldMap,
      select_transactions
          [[("lock_time", SValue.int 5), ("transaction_fee", SValue.int 7)],
           [("lock_time", SValue.int 200), ("transaction_fee", SValue.int 9)],
           [("lock_time", SValue.int 8), ("transaction_fee", SValue.int 7)]]
          100 2 = some (s.take 2) ∧
      s.Perm
        ([[("lock_time", SValue.int 5), ("transaction_fee", SValue.int 7)],
          [("lock_time", SValue.int 200), ("transaction_fee", SValue.int 9)],
          [("lock_time", SValue.int 8), ("transaction_fee", SValue.int 7)]].filter
          (fun tx => decide ((getIntField tx "lock_time").getD 0 < 100))) ∧
      s.Pairwise (fun a b => txFee b ≤ txFee a) ∧
      ∀ f : Int, s.filter (fun tx => txFee tx == f) =
        ([[("lock_time", SValue.int 5), ("transaction_fee", SValue.int 7)],
          [("lock_time", SValue.int 200), ("transaction_fee", SValue.int 9)],
          [("lock_time", SValue.int 8), ("transaction_fee", SValue.int 7)]].filter
          (fun tx => decide ((getIntField tx "lock_time").getD 0 < 100))).filter
          (fun tx => txFee tx == f) :=
  select_transactions_spec
    [[("lock_time", SValue.int 5), ("transaction_fee", SValue.int 7)],
     [("lock_time", SValue.int 200), ("transaction_fee", SValue.int 9)],
     [("lock_time", SValue.int 8), ("transaction_fee", SValue.int 7)]]
    100 2 (by decide) (by decide)

theorem scanLevel_neg (l : List String) : ∀ ci : Int, ci < 0 →
    (scanLevel l ci).2 = [] := by
  induction l using nextLevel.induct with
  | case1 => intro ci h; rfl
  | case2 a =>
      intro ci h
      simp only [scanLevel]
      rw [if_neg (by simp only [beq_iff_eq]; omega),
        if_neg (by simp only [beq_iff_eq]; omega)]
  | case3 a b rest ih =>
      intro ci h
      simp only [scanLevel]
      rw [if_neg (by simp only [beq_iff_eq]; omega),
        if_neg (by simp only [beq_iff_eq]; omega)]
      simp only [List.nil_append]
      exact ih (ci - 2) (by omega)

theorem fdiv_two_coe (k : Nat) :
    Int.fdiv (k : Int) 2 = ((k / 2 : Nat) : Int) := by
  rw [Int.fdiv_eq_ediv _ (by omega)]
  norm_cast

theorem fmod_two_coe (k : Nat) :
    Int.fmod (k : Int) 2 = ((k % 2 : Nat) : Int) := by
  rw [Int.fmod_eq_emod _ (by omega)]
  norm_cast

theorem scanLevel_one_eq (x : String) (ci : Int) :
    scanLevel [x] ci =
      ([hash_pair x NULL_HASH],
       if ci == 0 then [NULL_HASH] else if ci == 1 then [x] else []) := rfl

theorem scanLevel_cons_cons (x y : String) (rest : List String) (ci : Int) :
    scanLevel (x :: y :: rest) ci =
      (hash_pair x y :: (scanLevel rest (ci - 2)).1,
       (if ci == 0 then [y] else if ci == 1 then [x] else []) ++
         (scanLevel rest (ci - 2)).2) := rfl

theorem scanLevel_key : ∀ (l : List String), 2 ≤ l.length →
    ∀ k : Nat, k < l.length →
    ∃ sib, scanLevel l (k : Int) = (nextLevel l, [sib]) ∧
      (nextLevel l).getD (k / 2) "" =
        (if k % 2 = 0 then hash_pair (l.getD k "") sib
         else hash_pair sib (l.getD k "")) := by
  intro l
  induction l using nextLevel.induct with
  | case1 => intro h2; simp at h2
  | case2 a => intro h2; simp at h2
  | case3 a b rest ih =>
      intro h2 k hk
      match k with
      | 0 =>
          refine ⟨b, ?_, ?_⟩
          · rw [scanLevel_cons_cons]
            rw [if_pos (by decide)]
            rw [scanLevel_fst, scanLevel_neg rest _ (by omega)]
            simp [nextLevel]
          · simp [nextLevel, List.getD_cons_zero]
      | 1 =>
          refine ⟨a, ?_, ?_⟩
          · rw [scanLevel_cons_cons]
            rw [if_neg (by decide), if_pos (by decide)]
            rw [scanLevel_fst, scanLevel_neg rest _ (by omega)]
            simp [nextLevel]
          · simp [nextLevel, List.getD_cons_zero, List.getD_cons_succ]
      | n + 2 =>
          have hcast : ((n + 2 : Nat) : Int) - 2 = (n : Int) := by
            push_cast
            ring
          match rest with
          | [] =>
              simp only [List.length_cons, List.length_nil] at hk
              omega
          | [c] =>
              have hn : n = 0 := by
                simp only [List.length_cons, List.length_nil] at hk
                omega
              subst hn
              refine ⟨NULL_HASH, ?_, ?_⟩
              · rw [scanLevel_cons_cons]
                rw [if_neg (by decide), if_neg (by decide)]
                rw [hcast, scanLevel_one_eq]
                rw [if_pos (by decide)]
                simp [nextLevel]
              · simp [nextLevel, List.getD_cons_zero, List.getD_cons_succ]
          | c :: d :: rest2 =>
              obtain ⟨sib, hsl, hget⟩ := ih (by simp) n
                (by simp only [List.length_cons] at hk ⊢; omega)
              refine ⟨sib, ?_, ?_⟩
              · rw [scanLevel_cons_cons]
                rw [if_neg (by simp only [beq_iff_eq]; omega),
                  if_neg (by simp only [beq_iff_eq]; omega)]
                rw [hcast, hsl]
                simp [nextLevel]
              · have hdiv : (n + 2) / 2 = n / 2 + 1 := by omega
                have hmod : (n + 2) % 2 = n % 2 := by omega
                rw [hdiv, hmod]
                show (nextLevel (c :: d :: rest2)).getD (n / 2) "" = _
                rw [hget]
                rfl

theorem proofLoop_verify (fuel : Nat) : ∀ (l : List String) (k : Nat)
    (sz : Int), l.length ≤ fuel + 1 → 1 ≤ l.length → k < l.length →
    verifyLoop (l.getD k "") (proofLoop fuel l (k : Int)).2 (k : Int) sz =
      (proofLoop fuel l (k : Int)).1 := by
  induction fuel with
  | zero =>
      intro l k sz hf h1 hk
      match l with
      | [] => simp at h1
      | [a] =>
          have hk0 : k = 0 := by
            simp only [List.length_cons, List.length_nil] at hk
            omega
          subst hk0
          rfl
      | a :: b :: rest => simp at hf
  | succ n ih =>
      intro l k sz hf h1 hk
      match l with
      | [] => simp at h1
      | [a] =>
          have hk0 : k = 0 := by
            simp only [List.length_cons, List.length_nil] at hk
            omega
          subst hk0
          rfl
      | a :: b :: rest =>
          obtain ⟨sib, hscan, hget⟩ :=
            scanLevel_key (a :: b :: rest) (by simp) k hk
          have hlen := nextLevel_length (a :: b :: rest)
          simp only [proofLoop, hscan]
          simp only [List.cons_append, List.nil_append]
          simp only [verifyLoop]
          rw [fdiv_two_coe, fmod_two_coe]
          have hcomb :
              (if (((k % 2 : Nat) : Int) == 0) = true
               then hash_pair ((a :: b :: rest).getD k "") sib
               else hash_pair sib ((a :: b :: rest).getD k "")) =
              (nextLevel (a :: b :: rest)).getD (k / 2) "" := by
            rw [hget]
            by_cases hpar : k % 2 = 0
            · rw [if_pos (by simp [hpar]), if_pos hpar]
            · rw [if_neg (by simp [beq_iff_eq]; omega), if_neg hpar]
          rw [hcomb]
          have hlen2 : (nextLevel (a :: b :: rest)).length =
              (rest.length + 3) / 2 := by
            rw [hlen]
            simp only [List.length_cons]
          have hf2 : (nextLevel (a :: b :: rest)).length ≤ n + 1 := by
            rw [hlen2]
            simp only [List.length_cons] at hf
            omega
          have h12 : 1 ≤ (nextLevel (a :: b :: rest)).length := by
            rw [hlen2]
            omega
          have hk2 : k / 2 < (nextLevel (a :: b :: rest)).length := by
            rw [hlen2]
            simp only [List.length_cons] at hk
            omega
          exact ih (nextLevel (a :: b :: rest)) (k / 2) _ hf2 h12 hk2

/-- C1: the Merkle proof round-trip.  For every non-empty leaf list and
in-range index, when `build_merkle_tree_with_proof` returns a root and
sibling list, `verify_merkle_proof` on that leaf, sibling list, root,
index and leaf count returns true. -/
theorem merkle_proof_roundtrip (l : List String) (i : Nat) (hne : l ≠ [])
    (hi : i < l.length) (root : String) (siblings : List String)
    (heq : build_merkle_tree_with_proof l (i : Int) = some (root, siblings)) :
    verify_merkle_proof (l.getD i "") siblings root (i : Int)
      (l.length : Int) = true := by
  unfold build_merkle_tree_with_proof at heq
  rw [if_neg (by
    simp only [Bool.or_eq_true, List.isEmpty_iff, decide_eq_true_eq, not_or]
    exact ⟨hne, by omega⟩)] at heq
  by_cases h1 : (l.length == 1) = true
  · rw [if_pos h1] at heq
    match l, hne with
    | a :: rest, _ =>
        have hr : rest = [] := by
          simp only [List.length_cons, beq_iff_eq] at h1
          exact List.eq_nil_of_length_eq_zero (by omega)
        subst hr
        have hi0 : i = 0 := by
          simp only [List.length_cons, List.length_nil] at hi
          omega
        subst hi0
        simp only [List.headD_cons, Option.some_inj, Prod.mk.injEq] at heq
        obtain ⟨hroot, hsib⟩ := heq
        subst hroot
        subst hsib
        simp [verify_merkle_proof, verifyLoop, List.getD]
  · rw [if_neg h1] at heq
    simp only [Option.some_inj] at heq
    have hroot : root = (proofLoop l.length l (i : Int)).1 := by rw [heq]
    have hsib : siblings = (proofLoop l.length l (i : Int)).2 := by rw [heq]
    subst hroot
    subst hsib
    unfold verify_merkle_proof
    rw [proofLoop_verify l.length l i (l.length : Int)
      (by omega) (by match l, hne with | a :: rest, _ => simp) hi]
    simp

/-- C1 witness: the two-leaf tree at index 0. -/
theorem merkle_proof_roundtrip_witness :
    verify_merkle_proof
      "0x0101010101010101010101010101010101010101010101010101010101010101"
      ["0x0202020202020202020202020202020202020202020202020202020202020202"]
      "0x7619ddd5684b0b01ec5fdc457a89913cef8aa0b967f8dac2a030d77c70dfa9c7"
      0 2 = true :=
  merkle_proof_roundtrip
    ["0x0101010101010101010101010101010101010101010101010101010101010101",
     "0x0202020202020202020202020202020202020202020202020202020202020202"]
    0 (by decide) (by decide)
    "0x7619ddd5684b0b01ec5fdc457a89913cef8aa0b967f8dac2a030d77c70dfa9c7"
    ["0x0202020202020202020202020202020202020202020202020202020202020202"]
    (by decide)

end BlockchainClient

example : BlockchainClient.sha256hex (BlockchainClient.strUtf8 "abc") =
    "ba7816bf8f01cfea414140de5dae2223b00361a396177a9cb410ff61f20015ad" := by
  decide

example : BlockchainClient.serialize_block_header
    [("difficulty", BlockchainClient.SValue.int 5),
     ("height", BlockchainClient.SValue.int 203),
     ("transactions_merkle_root", BlockchainClient.SValue.str
        "0xddba0c2d7d38a9bc8ba357d1fcb4a4be339ab5fddf8cdcc4419970e4746d1f6e"),
     ("miner", BlockchainClient.SValue.str
        "0xdc45038aee5144bbfa641912eaf32ebf2bad2bd7"),
     ("previous_block_header_hash", BlockchainClient.SValue.str
        "0xb2448304889df2935277464e90a73e53b9d2c5820c48de4a40d4fa5b844c7b57"),
     ("timestamp", BlockchainClient.SValue.int 1697412660),
     ("transactions_count", BlockchainClient.SValue.int 97),
     ("nonce", BlockchainClient.SValue.int 0)] =
    "5,203,0xdc45038aee5144bbfa641912eaf32ebf2bad2bd7,0,0xb2448304889df2935277464e90a73e53b9d2c5820c48de4a40d4fa5b844c7b57,1697412660,97,0xddba0c2d7d38a9bc8ba357d1fcb4a4be339ab5fddf8cdcc4419970e4746d1f6e" := by
  decide
